import Mathlib

/-!
Verification of the charenko_project document-processing pipeline
(`final.py`) against its natural-language specification.

The Python program is shallowly embedded: strings are `List Char`,
regular-expression operations are hand-translated scanners with the
exact leftmost / greedy / backtracking behaviour of the patterns used
by the source, thread-pool concurrency is modelled by an explicit
completion sequence (jobs in completion order) cut at a deadline
index, and the CSV sink is modelled as an append operation that may
fail.  Whitespace and digits are modelled at the ASCII level, which
covers every character class the program's patterns use on the
documents it is specified for.
-/

/-- ASCII model of Python's whitespace class (used by `\s`, `str.strip`,
`str.isspace`): space, tab, newline, carriage return, vertical tab,
form feed. -/
def isPySpace (c : Char) : Bool :=
  c = ' ' || c = '\t' || c = '\n' || c = '\r' || c = '\x0b' || c = '\x0c'

/-- Python `str.strip()`: remove leading and trailing whitespace. -/
def pyStrip (cs : List Char) : List Char :=
  (cs.dropWhile isPySpace).rdropWhile isPySpace

/-- Python `" ".join(parts)`. -/
def joinSpace : List (List Char) → List Char
  | [] => []
  | [x] => x
  | x :: y :: t => x ++ ' ' :: joinSpace (y :: t)

/-- Python `needle in hay` substring test. -/
def containsSub (hay needle : List Char) : Bool :=
  needle.isPrefixOf hay ||
    match hay with
    | [] => false
    | _ :: t => containsSub t needle

/-- Length of the scheme matched at the head of `cs` by the regex
`http[s]?://` (greedy `s?`: the `https://` alternative is tried first). -/
def urlSchemeLen (cs : List Char) : Option Nat :=
  if cs.take 8 = "https://".toList then some 8
  else if cs.take 7 = "http://".toList then some 7
  else none

/-- One attempt of the pattern `http[s]?://\S+` at the head of `cs`
(`re.sub` in `clean_text`, final.py line 19).  On success returns the
remainder of the string after the greedy non-whitespace run. -/
def matchUrl (cs : List Char) : Option (List Char) :=
  match urlSchemeLen cs with
  | none => none
  | some n =>
    match (cs.drop n).head? with
    | none => none
    | some c =>
      if isPySpace c then none
      else some ((cs.drop n).dropWhile (fun d => !isPySpace d))

theorem urlSchemeLen_pos {cs : List Char} {n : Nat} (h : urlSchemeLen cs = some n) :
    0 < n ∧ n ≤ cs.length := by
  unfold urlSchemeLen at h
  split at h
  next h8 =>
    have h8l : (cs.take 8).length = 8 := by rw [h8]; rfl
    rw [List.length_take] at h8l
    cases h
    omega
  next =>
    split at h
    next h7 =>
      have h7l : (cs.take 7).length = 7 := by rw [h7]; rfl
      rw [List.length_take] at h7l
      cases h
      omega
    next => exact absurd h (by simp)

theorem matchUrl_length_lt {cs r : List Char} (h : matchUrl cs = some r) :
    r.length < cs.length := by
  unfold matchUrl at h
  split at h
  · exact absurd h (by simp)
  next n hs =>
    split at h
    · exact absurd h (by simp)
    next c hh =>
      split at h
      · exact absurd h (by simp)
      next =>
        obtain ⟨hn, _⟩ := urlSchemeLen_pos hs
        have hlen : ((cs.drop n).dropWhile (fun d => !isPySpace d)).length ≤ (cs.drop n).length :=
          (List.dropWhile_suffix _).length_le
        have hne : cs.drop n ≠ [] := by
          intro he
          rw [he] at hh
          exact absurd hh (by simp)
        have hdl := List.length_lt_of_drop_ne_nil hne
        cases h
        rw [List.length_drop] at hlen
        omega

/-- Fuel-indexed scanner for `re.sub(r'http[s]?://\S+', '', text)`:
scan left to right, delete each match, resume after it.  The fuel
(initially the input length, which `matchUrl_length_lt` shows is
enough) only forces structural recursion and never runs out. -/
def removeUrlsFuel : Nat → List Char → List Char
  | 0, _ => []
  | _, [] => []
  | fuel + 1, c :: cs =>
    match matchUrl (c :: cs) with
    | some rest => removeUrlsFuel fuel rest
    | none => c :: removeUrlsFuel fuel cs

theorem removeUrlsFuel_nil (f : Nat) : removeUrlsFuel f [] = [] := by
  cases f <;> rfl

theorem removeUrlsFuel_congr :
    ∀ (f1 f2 : Nat) (cs : List Char), cs.length ≤ f1 → cs.length ≤ f2 →
      removeUrlsFuel f1 cs = removeUrlsFuel f2 cs := by
  intro f1
  induction f1 with
  | zero =>
    intro f2 cs h1 _
    have : cs = [] := List.length_eq_zero.mp (Nat.le_zero.mp h1)
    subst this
    rw [removeUrlsFuel_nil, removeUrlsFuel_nil]
  | succ f1 ih =>
    intro f2 cs h1 h2
    cases cs with
    | nil => rw [removeUrlsFuel_nil, removeUrlsFuel_nil]
    | cons c cs =>
      cases f2 with
      | zero => exact absurd h2 (by simp)
      | succ f2 =>
        show (match matchUrl (c :: cs) with
            | some rest => removeUrlsFuel f1 rest
            | none => c :: removeUrlsFuel f1 cs) =
          (match matchUrl (c :: cs) with
            | some rest => removeUrlsFuel f2 rest
            | none => c :: removeUrlsFuel f2 cs)
        cases hm : matchUrl (c :: cs) with
        | some rest =>
          have := matchUrl_length_lt hm
          simp only [List.length_cons] at h1 h2 this
          exact ih f2 rest (by omega) (by omega)
        | none =>
          simp only [List.length_cons] at h1 h2
          rw [ih f2 cs (by omega) (by omega)]

/-- `re.sub(r'http[s]?://\S+', '', text)` (final.py line 19). -/
def removeUrls (cs : List Char) : List Char :=
  removeUrlsFuel cs.length cs

theorem removeUrls_nil : removeUrls [] = [] := rfl

theorem removeUrls_cons (c : Char) (cs : List Char) :
    removeUrls (c :: cs) =
      match matchUrl (c :: cs) with
      | some rest => removeUrls rest
      | none => c :: removeUrls cs := by
  show removeUrlsFuel (cs.length + 1) (c :: cs) = _
  show (match matchUrl (c :: cs) with
      | some rest => removeUrlsFuel cs.length rest
      | none => c :: removeUrlsFuel cs.length cs) = _
  cases hm : matchUrl (c :: cs) with
  | some rest =>
    have := matchUrl_length_lt hm
    simp only [List.length_cons] at this
    exact removeUrlsFuel_congr _ _ rest (by omega) (by omega)
  | none => rfl

/-- State-passing scanner for `re.sub(r'\s+', ' ', text)`: the flag
records whether the scanner is inside a whitespace run whose single
replacement space has already been emitted. -/
def collapseWsAux : Bool → List Char → List Char
  | _, [] => []
  | inRun, c :: cs =>
    if isPySpace c then
      if inRun then collapseWsAux true cs
      else ' ' :: collapseWsAux true cs
    else c :: collapseWsAux false cs

/-- `re.sub(r'\s+', ' ', text)` (final.py line 20): collapse every
maximal whitespace run to a single space. -/
def collapseWs (cs : List Char) : List Char :=
  collapseWsAux false cs

/-- `clean_text` (final.py lines 18-20): drop URLs, collapse whitespace,
strip. -/
def clean_text (cs : List Char) : List Char :=
  pyStrip (collapseWs (removeUrls cs))

/-- One attempt of the `MULTILINE` pattern `^\d+\.\s+(.*)` at a
line-start position (`extract_titles_from_toc`, final.py line 35):
one or more digits, a literal dot, a greedy whitespace run (which may
cross newlines), then the captured rest of line.  On success returns
the capture and the remainder of the input after the match. -/
def matchTitle (cs : List Char) : Option (List Char × List Char) :=
  match cs.head? with
  | none => none
  | some c =>
    if c.isDigit then
      match (cs.dropWhile Char.isDigit).head? with
      | some '.' =>
        match (cs.dropWhile Char.isDigit).tail.head? with
        | some w =>
          if isPySpace w then
            some
              (((cs.dropWhile Char.isDigit).tail.dropWhile isPySpace).takeWhile
                  (fun d => d ≠ '\n'),
                ((cs.dropWhile Char.isDigit).tail.dropWhile isPySpace).dropWhile
                  (fun d => d ≠ '\n'))
          else none
        | none => none
      | _ => none
    else none

theorem matchTitle_length_lt {cs : List Char} {t rest : List Char}
    (h : matchTitle cs = some (t, rest)) : rest.length < cs.length := by
  unfold matchTitle at h
  split at h
  · exact absurd h (by simp)
  next c hc =>
    split at h
    · next =>
      split at h
      next heq =>
        split at h
        next w hw =>
          split at h
          next =>
            have h1 : (cs.dropWhile Char.isDigit).length < cs.length := by
              cases cs with
              | nil => exact absurd hc (by simp)
              | cons a as =>
                have ha : a = c := by simpa using hc
                have : Char.isDigit a = true := by rw [ha]; assumption
                rw [List.dropWhile_cons, if_pos this]
                have := (List.dropWhile_suffix (l := as) Char.isDigit).length_le
                simp only [List.length_cons]
                omega
            have h2 : (cs.dropWhile Char.isDigit).tail.length + 1 =
                (cs.dropWhile Char.isDigit).length := by
              cases hd : cs.dropWhile Char.isDigit with
              | nil => rw [hd] at heq; exact absurd heq (by simp)
              | cons a as => simp
            have h3 := (List.dropWhile_suffix (l := (cs.dropWhile Char.isDigit).tail)
              isPySpace).length_le
            have h4 := (List.dropWhile_suffix
              (l := ((cs.dropWhile Char.isDigit).tail.dropWhile isPySpace))
              (fun d => d ≠ '\n')).length_le
            cases h
            omega
          · exact absurd h (by simp)
        next => exact absurd h (by simp)
      next => exact absurd h (by simp)
    · exact absurd h (by simp)

/-- Fuel-indexed scanner for the MULTILINE `findall` of
final.py line 35; the fuel (initially the input length) only forces
structural recursion and never runs out. -/
def scanTitlesFuel : Nat → Bool → List Char → List (List Char)
  | 0, _, _ => []
  | _, _, [] => []
  | fuel + 1, bol, c :: rest =>
    if bol then
      match matchTitle (c :: rest) with
      | some (t, rest2) => t :: scanTitlesFuel fuel false rest2
      | none => scanTitlesFuel fuel (c = '\n') rest
    else scanTitlesFuel fuel (c = '\n') rest

theorem scanTitlesFuel_nil (f : Nat) (bol : Bool) : scanTitlesFuel f bol [] = [] := by
  cases f <;> rfl

theorem scanTitlesFuel_congr :
    ∀ (f1 f2 : Nat) (bol : Bool) (cs : List Char), cs.length ≤ f1 → cs.length ≤ f2 →
      scanTitlesFuel f1 bol cs = scanTitlesFuel f2 bol cs := by
  intro f1
  induction f1 with
  | zero =>
    intro f2 bol cs h1 _
    have : cs = [] := List.length_eq_zero.mp (Nat.le_zero.mp h1)
    subst this
    rw [scanTitlesFuel_nil, scanTitlesFuel_nil]
  | succ f1 ih =>
    intro f2 bol cs h1 h2
    cases cs with
    | nil => rw [scanTitlesFuel_nil, scanTitlesFuel_nil]
    | cons c rest =>
      cases f2 with
      | zero => exact absurd h2 (by simp)
      | succ f2 =>
        show (if bol then
            match matchTitle (c :: rest) with
            | some (t, rest2) => t :: scanTitlesFuel f1 false rest2
            | none => scanTitlesFuel f1 (c = '\n') rest
          else scanTitlesFuel f1 (c = '\n') rest) =
          (if bol then
            match matchTitle (c :: rest) with
            | some (t, rest2) => t :: scanTitlesFuel f2 false rest2
            | none => scanTitlesFuel f2 (c = '\n') rest
          else scanTitlesFuel f2 (c = '\n') rest)
        simp only [List.length_cons] at h1 h2
        cases bol with
        | false => exact ih f2 _ rest (by omega) (by omega)
        | true =>
          cases hm : matchTitle (c :: rest) with
          | some p =>
            obtain ⟨t, r2⟩ := p
            have := matchTitle_length_lt hm
            simp only [List.length_cons] at this
            show t :: scanTitlesFuel f1 false r2 = t :: scanTitlesFuel f2 false r2
            rw [ih f2 false r2 (by omega) (by omega)]
          | none =>
            show scanTitlesFuel f1 (c = '\n') rest = scanTitlesFuel f2 (c = '\n') rest
            exact ih f2 _ rest (by omega) (by omega)

/-- Scanner for `re.findall(r'^\d+\.\s+(.*)', content, re.MULTILINE)`
(final.py line 35).  `bol` is true when the current position is the
start of the input or follows a newline; matches are non-overlapping
and the scan resumes after each match, exactly as `findall` does. -/
def scanTitles (bol : Bool) (cs : List Char) : List (List Char) :=
  scanTitlesFuel cs.length bol cs

theorem scanTitles_nil (bol : Bool) : scanTitles bol [] = [] := rfl

theorem scanTitles_cons (bol : Bool) (c : Char) (rest : List Char) :
    scanTitles bol (c :: rest) =
      if bol then
        match matchTitle (c :: rest) with
        | some (t, rest2) => t :: scanTitles false rest2
        | none => scanTitles (c = '\n') rest
      else scanTitles (c = '\n') rest := by
  show scanTitlesFuel (rest.length + 1) bol (c :: rest) = _
  show (if bol then
      match matchTitle (c :: rest) with
      | some (t, rest2) => t :: scanTitlesFuel rest.length false rest2
      | none => scanTitlesFuel rest.length (c = '\n') rest
    else scanTitlesFuel rest.length (c = '\n') rest) = _
  cases bol with
  | false => rfl
  | true =>
    cases hm : matchTitle (c :: rest) with
    | some p =>
      obtain ⟨t, r2⟩ := p
      have := matchTitle_length_lt hm
      simp only [List.length_cons] at this
      show t :: scanTitlesFuel rest.length false r2 = t :: scanTitles false r2
      rw [scanTitlesFuel_congr rest.length r2.length false r2 (by omega) (by omega)]
      rfl
    | none => rfl

/-- `extract_titles_from_toc` (final.py lines 32-35) applied to the
text of the input file. -/
def extract_titles_from_toc (content : List Char) : List (List Char) :=
  scanTitles true content

/-- Case-insensitive match of `title` against `content` starting at
offset `i` (the `re.IGNORECASE` literal produced by `re.escape(title)`
in final.py line 44, at the ASCII level). -/
def ciMatchAt (content title : List Char) (i : Nat) : Bool :=
  ((content.drop i).take title.length).map Char.toLower = title.map Char.toLower

/-- One attempt of the compiled pattern `(^|\n)` + title + `(\n)`
(final.py line 44) at offset `j` of `content`.  The `^` alternative is
tried first and, as the pattern is not MULTILINE, only applies at
offset 0.  On success returns the end offset of the match. -/
def patMatchEnd (content title : List Char) (j : Nat) : Option Nat :=
  if j = 0 && ciMatchAt content title 0 &&
      content.get? title.length == some '\n' then
    some (title.length + 1)
  else if content.get? j == some '\n' && ciMatchAt content title (j + 1) &&
      content.get? (j + 1 + title.length) == some '\n' then
    some (j + 1 + title.length + 1)
  else none

/-- Fuel-indexed scanner for `title_pattern.finditer` (final.py
line 45); the fuel (initially `length + 1 - pos`) only forces
structural recursion and never runs out. -/
def finditerFromFuel (content title : List Char) : Nat → Nat → List (Nat × Nat)
  | 0, _ => []
  | fuel + 1, pos =>
    if content.length < pos then []
    else
      match patMatchEnd content title pos with
      | some e => (pos, e) :: finditerFromFuel content title fuel (max e (pos + 1))
      | none => finditerFromFuel content title fuel (pos + 1)

theorem finditerFromFuel_congr (content title : List Char) :
    ∀ (f1 f2 pos : Nat), content.length + 1 - pos ≤ f1 → content.length + 1 - pos ≤ f2 →
      finditerFromFuel content title f1 pos = finditerFromFuel content title f2 pos := by
  intro f1
  induction f1 with
  | zero =>
    intro f2 pos h1 _
    have hpos : content.length < pos := by omega
    cases f2 with
    | zero => rfl
    | succ f2 =>
      show _ = (if content.length < pos then [] else _)
      rw [if_pos hpos]
      rfl
  | succ f1 ih =>
    intro f2 pos h1 h2
    by_cases hpos : content.length < pos
    · cases f2 with
      | zero =>
        show (if content.length < pos then [] else _) = _
        rw [if_pos hpos]
        rfl
      | succ f2 =>
        show (if content.length < pos then [] else _) =
          (if content.length < pos then [] else _)
        rw [if_pos hpos, if_pos hpos]
    · cases f2 with
      | zero => omega
      | succ f2 =>
        show (if content.length < pos then [] else _) =
          (if content.length < pos then [] else _)
        rw [if_neg hpos, if_neg hpos]
        cases hm : patMatchEnd content title pos with
        | some e =>
          show (pos, e) :: finditerFromFuel content title f1 (max e (pos + 1)) =
            (pos, e) :: finditerFromFuel content title f2 (max e (pos + 1))
          rw [ih f2 (max e (pos + 1)) (by omega) (by omega)]
        | none =>
          show finditerFromFuel content title f1 (pos + 1) =
            finditerFromFuel content title f2 (pos + 1)
          exact ih f2 (pos + 1) (by omega) (by omega)

/-- `title_pattern.finditer(content)` (final.py line 45) from scan
position `pos`: the non-overlapping matches of the title pattern in
document order, as (start, end) offset pairs; after each match the
scan resumes at its end offset. -/
def finditerFrom (content title : List Char) (pos : Nat) : List (Nat × Nat) :=
  finditerFromFuel content title (content.length + 1 - pos) pos

theorem finditerFrom_step (content title : List Char) (pos : Nat) :
    finditerFrom content title pos =
      if content.length < pos then []
      else
        match patMatchEnd content title pos with
        | some e => (pos, e) :: finditerFrom content title (max e (pos + 1))
        | none => finditerFrom content title (pos + 1) := by
  by_cases hpos : content.length < pos
  · rw [if_pos hpos]
    show finditerFromFuel content title (content.length + 1 - pos) pos = []
    have : content.length + 1 - pos = 0 := by omega
    rw [this]
    rfl
  · rw [if_neg hpos]
    have hn : content.length + 1 - pos = (content.length - pos) + 1 := by omega
    rw [show finditerFrom content title pos =
        finditerFromFuel content title ((content.length - pos) + 1) pos from by
      unfold finditerFrom; rw [hn]]
    show (if content.length < pos then [] else _) = _
    rw [if_neg hpos]
    cases hm : patMatchEnd content title pos with
    | some e =>
      show (pos, e) :: finditerFromFuel content title (content.length - pos) (max e (pos + 1)) =
        (pos, e) :: finditerFrom content title (max e (pos + 1))
      unfold finditerFrom
      rw [finditerFromFuel_congr content title (content.length - pos)
        (content.length + 1 - max e (pos + 1)) (max e (pos + 1)) (by omega) (by omega)]
    | none =>
      show finditerFromFuel content title (content.length - pos) (pos + 1) =
        finditerFrom content title (pos + 1)
      unfold finditerFrom
      exact finditerFromFuel_congr content title (content.length - pos)
        (content.length + 1 - (pos + 1)) (pos + 1) (by omega) (by omega)

/-- All matches of the title pattern in `content`. -/
def finditer (content title : List Char) : List (Nat × Nat) :=
  finditerFrom content title 0

/-- The raw (trimmed but not normalized) body text that
`extract_text_beneath_duplicates` slices out for the occurrence of
`title` whose pattern match ends at offset `start` — the local
`extracted_text` of final.py lines 48-50, including the Python
truthiness test `if next_title_pos` (false both for `None` and for a
next occurrence at offset 0 of the suffix). -/
def sectionRaw (content title : List Char) (start : Nat) : List Char :=
  match ((finditer (content.drop start) title).head?).map Prod.fst with
  | some p => if p ≠ 0 then pyStrip ((content.drop start).take p)
              else pyStrip (content.drop start)
  | none => pyStrip (content.drop start)

/-- The character class `[:\-\s]` of the metadata patterns
(final.py lines 14-16). -/
def classCR (c : Char) : Bool :=
  c = ':' || c = '-' || isPySpace c

/-- The capture class `[A-Za-z,. ]` of the author pattern
(final.py line 14). -/
def authorCap (c : Char) : Bool :=
  ('A' ≤ c && c ≤ 'Z') || ('a' ≤ c && c ≤ 'z') || c = ',' || c = '.' || c = ' '

/-- Case-insensitive literal-prefix test (a `(?i)` literal alternative
at the current scan position). -/
def ciIsPrefixOf (needle hay : List Char) : Bool :=
  (hay.take needle.length).map Char.toLower = needle.map Char.toLower

/-- The part of the author pattern after the `(author|by)` prefix:
`\s*[:\-\s]*([A-Za-z,. ]+)`.  Both starred classes are greedy and
together reach the end of the maximal `[:\-\s]` run; the capture is
tried there first and, on failure, backtracking releases run
characters one at a time, which can only succeed at a released `' '`
(the sole run character also in the capture class), yielding the
single-space capture. -/
def authorTailCap (rest : List Char) : Option (List Char) :=
  match (rest.dropWhile classCR).head? with
  | some m =>
    if authorCap m then some ((rest.dropWhile classCR).takeWhile authorCap)
    else if (rest.takeWhile classCR).contains ' ' then some [' ']
    else none
  | none =>
    if (rest.takeWhile classCR).contains ' ' then some [' ']
    else none

/-- One attempt of `(?i)(author|by)\s*[:\-\s]*([A-Za-z,. ]+)` at the
head of `hay`; on success returns the group-2 capture. -/
def authorAttempt (hay : List Char) : Option (List Char) :=
  if ciIsPrefixOf "author".toList hay then authorTailCap (hay.drop 6)
  else if ciIsPrefixOf "by".toList hay then authorTailCap (hay.drop 2)
  else none

/-- `author_pattern.search(text)` (final.py lines 14, 24): group 2 of
the leftmost match. -/
def author_search : List Char → Option (List Char)
  | [] => none
  | c :: cs =>
    match authorAttempt (c :: cs) with
    | some g => some g
    | none => author_search cs

/-- The part of the publication-title pattern after its prefix:
`:?\s*[:\-\s]*(.*?)(?=\n|$)`.  The greedy classes reach the end of the
maximal `[:\-\s]` run; the lazy capture then always succeeds,
extending to the next newline or the end of input. -/
def titleTailCap (rest : List Char) : List Char :=
  (rest.dropWhile classCR).takeWhile (fun d => d ≠ '\n')

/-- One attempt of
`(?i)(publication title|title):?\s*[:\-\s]*(.*?)(?=\n|$)` at the head
of `hay`. -/
def titleAttempt (hay : List Char) : Option (List Char) :=
  if ciIsPrefixOf "publication title".toList hay then some (titleTailCap (hay.drop 17))
  else if ciIsPrefixOf "title".toList hay then some (titleTailCap (hay.drop 5))
  else none

/-- `title_pattern.search(text)` (final.py lines 15, 26): group 2 of
the leftmost match. -/
def title_search : List Char → Option (List Char)
  | [] => none
  | c :: cs =>
    match titleAttempt (c :: cs) with
    | some g => some g
    | none => title_search cs

/-- Shape test for `\d{4}-\d{2}-\d{2}` as a prefix. -/
def dateShape : List Char → Bool
  | a :: b :: c :: d :: '-' :: e :: f :: '-' :: g :: h :: _ =>
    a.isDigit && b.isDigit && c.isDigit && d.isDigit &&
      e.isDigit && f.isDigit && g.isDigit && h.isDigit
  | _ => false

/-- The part of the date pattern after its prefix:
`:?\s*[:\-\s]*(\d{4}-\d{2}-\d{2})`.  The capture must start with a
digit, which no releasable `[:\-\s]` run character is, so the date
must sit exactly at the end of the maximal run. -/
def dateTailCap (rest : List Char) : Option (List Char) :=
  if dateShape (rest.dropWhile classCR) then some ((rest.dropWhile classCR).take 10)
  else none

/-- One attempt of `(?i)(date|published):?\s*[:\-\s]*(\d{4}-\d{2}-\d{2})`
at the head of `hay`. -/
def dateAttempt (hay : List Char) : Option (List Char) :=
  if ciIsPrefixOf "date".toList hay then dateTailCap (hay.drop 4)
  else if ciIsPrefixOf "published".toList hay then dateTailCap (hay.drop 9)
  else none

/-- `date_pattern.search(text)` (final.py lines 16, 28): group 2 of
the leftmost match. -/
def date_search : List Char → Option (List Char)
  | [] => none
  | c :: cs =>
    match dateAttempt (c :: cs) with
    | some g => some g
    | none => date_search cs

/-- The optional author / publication-title / date fields of
`extract_metadata`'s result dictionary. -/
structure Metadata where
  author : Option (List Char)
  pubTitle : Option (List Char)
  date : Option (List Char)
deriving DecidableEq, Repr

/-- `extract_metadata` (final.py lines 22-30): three independent
first-match lookups, each stripped. -/
def extract_metadata (text : List Char) : Metadata :=
  { author := (author_search text).map pyStrip
    pubTitle := (title_search text).map pyStrip
    date := (date_search text).map pyStrip }

/-- The `(title, cleaned_text, metadata)` tuples accumulated by
`extract_text_beneath_duplicates` (final.py lines 42-54). -/
def extract_text_beneath_duplicates (content : List Char) (titles : List (List Char)) :
    List (List Char × List Char × Metadata) :=
  titles.flatMap (fun title =>
    (finditer content title).map (fun m =>
      (title, clean_text (sectionRaw content title m.2),
        extract_metadata (sectionRaw content title m.2))))

/-- The raw trimmed section bodies (`extracted_text`, final.py line 50)
in the order the segmenter produces them. -/
def sectionRawBodies (content : List Char) (titles : List (List Char)) : List (List Char) :=
  titles.flatMap (fun title =>
    (finditer content title).map (fun m => sectionRaw content title m.2))

def chunks2048Fuel : Nat → List Char → List (List Char)
  | 0, _ => []
  | _, [] => []
  | fuel + 1, c :: cs => ((c :: cs).take 2048) :: chunks2048Fuel fuel ((c :: cs).drop 2048)

/-- The fixed chunking `[text[i:i+2048] for i in range(0, len(text), 2048)]`
(final.py line 65), via a fuel-indexed structural recursion whose fuel
(the input length) never runs out. -/
def chunks2048 (cs : List Char) : List (List Char) :=
  chunks2048Fuel cs.length cs

/-- `summarize_text` (final.py lines 59-70).  The external summarizer
pipeline is the black-box capability `summarizer` (text of one chunk
in, summary text out). -/
def summarize_text (summarizer : List Char → List Char) (text : List Char) : List Char :=
  if (pyStrip text).length < 50 then "Text too short to summarize".toList
  else joinSpace ((chunks2048 (pyStrip text)).map summarizer)

/-- The sentence terminators of `re.split(r'[.!?]', text)`. -/
def isSentTerm (c : Char) : Bool :=
  c = '.' || c = '!' || c = '?'

/-- `re.split(r'[.!?]', text)` (final.py line 73): split at every
terminator, keeping empty pieces. -/
def splitTerm : List Char → List (List Char)
  | [] => [[]]
  | c :: cs =>
    if isSentTerm c then [] :: splitTerm cs
    else
      match splitTerm cs with
      | [] => [[c]]
      | h :: t => (c :: h) :: t

/-- The sentence filter of final.py line 74: the lowercased sentence
must contain both "climate change" and "insurance". -/
def corrKeywords (s : List Char) : Bool :=
  containsSub (s.map Char.toLower) "climate change".toList &&
    containsSub (s.map Char.toLower) "insurance".toList

/-- `summarize_climate_insurance_correlation` (final.py lines 72-75). -/
def summarize_climate_insurance_correlation (summarizer : List Char → List Char)
    (text : List Char) : List Char :=
  if ((splitTerm text).filter corrKeywords).isEmpty then
    "No correlation between climate change and insurance found.".toList
  else summarize_text summarizer (joinSpace (((splitTerm text).filter corrKeywords).map pyStrip))

/-- The 5-tuple a completed job returns (final.py line 81). -/
structure JobResult where
  title : List Char
  text : List Char
  summary : List Char
  correlation : List Char
  metadata : Metadata
deriving DecidableEq

/-- `process_text_item_in_threads` (final.py lines 77-81): the job body
run for one section. -/
def process_text_item_in_threads (summarizer : List Char → List Char)
    (td : List Char × List Char × Metadata) : JobResult :=
  { title := td.1
    text := td.2.1
    summary := summarize_text summarizer td.2.1
    correlation := summarize_climate_insurance_correlation summarizer td.2.1
    metadata := td.2.2 }

/-- The 7-field row handed to `save_to_csv_incremental`
(final.py lines 107-112). -/
structure CsvRow where
  title : List Char
  text : List Char
  summary : List Char
  correlation : List Char
  author : List Char
  pubTitle : List Char
  date : List Char
deriving DecidableEq

/-- Row construction of final.py lines 107-112: missing metadata fields
become the sentinel "N/A" at write time. -/
def toRow (r : JobResult) : CsvRow :=
  { title := r.title
    text := r.text
    summary := r.summary
    correlation := r.correlation
    author := r.metadata.author.getD "N/A".toList
    pubTitle := r.metadata.pubTitle.getD "N/A".toList
    date := r.metadata.date.getD "N/A".toList }

/-- A section's input tuple, the value of the `future_to_text`
dictionary (final.py line 101). -/
abbrev TextData := List Char × List Char × Metadata

/-- The sink's append operation (`save_to_csv_incremental`,
final.py lines 83-89), which may raise. -/
abbrev Sink := CsvRow → Except (List Char) Unit

/-- Observable state of one drain-loop run: the rows the sink has
appended, and the log messages emitted, in order. -/
structure DrainState where
  rows : List CsvRow
  log : List (List Char)
deriving DecidableEq

/-- Message of final.py line 89 (logged by a successful append). -/
def rowAppendedMsg : List Char :=
  "Row appended to CSV.".toList

/-- Message of final.py line 115 (the `except` handler around one
drained completion; `e` is the exception text). -/
def jobErrorMsg (e : List Char) : List Char :=
  "Error processing text: ".toList ++ e

/-- Message of final.py line 118 (the `FuturesTimeoutError` handler). -/
def timeoutMsg : List Char :=
  "Time limit exceeded. Saving available results.".toList

/-- One iteration of the drain loop (final.py lines 104-115) on a
drained completion: `c.1` is the submitted tuple (looked up in
`future_to_text` but unused), `c.2` the outcome of `future.result()`.
A job error, or an error raised by the sink's append, is caught by the
same `except Exception` handler: logged, no row, loop continues. -/
def drainStep (sink : Sink) (st : DrainState)
    (c : TextData × Except (List Char) JobResult) : DrainState :=
  match c.2 with
  | Except.error e => { st with log := st.log ++ [jobErrorMsg e] }
  | Except.ok r =>
    match sink (toRow r) with
    | Except.error e => { st with log := st.log ++ [jobErrorMsg e] }
    | Except.ok _ => { rows := st.rows ++ [toRow r], log := st.log ++ [rowAppendedMsg] }

/-- `parallel_process_texts_in_threads` (final.py lines 99-118),
shallowly embedded over the scheduler's behaviour for one batch:
`completions` lists the submitted jobs in completion order, each with
its eventual outcome (`future.result()` returns a value or raises);
`k` is the number of completions that arrive before the global
deadline.  `as_completed(..., timeout=TIMEOUT)` yields exactly the
first `k` completions and then, if jobs are still outstanding, raises
`FuturesTimeoutError`, which the outer handler turns into a single
timeout log message. -/
def parallel_process_texts_in_threads (sink : Sink)
    (completions : List (TextData × Except (List Char) JobResult)) (k : Nat) : DrainState :=
  let st := (completions.take k).foldl (drainStep sink) ⟨[], []⟩
  if k < completions.length then { st with log := st.log ++ [timeoutMsg] } else st

/-- The row (if any) that one drained completion contributes: a job
error contributes nothing, a completed job contributes its row unless
the sink's append fails. -/
def drainedRow (sink : Sink) (c : TextData × Except (List Char) JobResult) : Option CsvRow :=
  match c.2 with
  | Except.error _ => none
  | Except.ok r =>
    match sink (toRow r) with
    | Except.error _ => none
    | Except.ok _ => some (toRow r)

/-- The log message one drained completion emits. -/
def drainLogMsg (sink : Sink) (c : TextData × Except (List Char) JobResult) : List Char :=
  match c.2 with
  | Except.error e => jobErrorMsg e
  | Except.ok r =>
    match sink (toRow r) with
    | Except.error e => jobErrorMsg e
    | Except.ok _ => rowAppendedMsg

theorem drain_foldl_rows (sink : Sink) (cs : List (TextData × Except (List Char) JobResult))
    (st : DrainState) :
    (cs.foldl (drainStep sink) st).rows = st.rows ++ cs.filterMap (drainedRow sink) := by
  induction cs generalizing st with
  | nil => simp
  | cons c cs ih =>
    rw [List.foldl_cons, ih, List.filterMap_cons]
    unfold drainStep drainedRow
    rcases c with ⟨td, out⟩
    cases out with
    | error e => simp
    | ok r =>
      cases hs : sink (toRow r) with
      | error e => simp [hs]
      | ok u => simp [hs]

theorem drain_foldl_log (sink : Sink) (cs : List (TextData × Except (List Char) JobResult))
    (st : DrainState) :
    (cs.foldl (drainStep sink) st).log = st.log ++ cs.map (drainLogMsg sink) := by
  induction cs generalizing st with
  | nil => simp
  | cons c cs ih =>
    rw [List.foldl_cons, ih, List.map_cons]
    unfold drainStep drainLogMsg
    rcases c with ⟨td, out⟩
    cases out with
    | error e => simp
    | ok r =>
      cases hs : sink (toRow r) with
      | error e => simp [hs]
      | ok u => simp [hs]

theorem parallel_rows (sink : Sink) (completions : List (TextData × Except (List Char) JobResult))
    (k : Nat) :
    (parallel_process_texts_in_threads sink completions k).rows =
      (completions.take k).filterMap (drainedRow sink) := by
  unfold parallel_process_texts_in_threads
  split <;> simp [drain_foldl_rows]

theorem parallel_log (sink : Sink) (completions : List (TextData × Except (List Char) JobResult))
    (k : Nat) :
    (parallel_process_texts_in_threads sink completions k).log =
      (completions.take k).map (drainLogMsg sink) ++
        (if k < completions.length then [timeoutMsg] else []) := by
  unfold parallel_process_texts_in_threads
  split <;> simp [drain_foldl_log]

theorem jobErrorMsg_ne_timeoutMsg (e : List Char) : jobErrorMsg e ≠ timeoutMsg := by
  intro h
  have h2 : List.head? (jobErrorMsg e) = some 'E' := rfl
  rw [h] at h2
  exact absurd h2 (by decide)

theorem drainLogMsg_ne_timeoutMsg (sink : Sink) (c : TextData × Except (List Char) JobResult) :
    drainLogMsg sink c ≠ timeoutMsg := by
  unfold drainLogMsg
  rcases c with ⟨td, out⟩
  cases out with
  | error e => simpa using jobErrorMsg_ne_timeoutMsg e
  | ok r =>
    cases hs : sink (toRow r) with
    | error e => simpa [hs] using jobErrorMsg_ne_timeoutMsg e
    | ok u =>
      simp only [hs]
      decide

theorem length_filterMap_lt_of_none {α β : Type} {f : α → Option β} {l : List α} {x : α}
    (hx : x ∈ l) (hfx : f x = none) : (l.filterMap f).length < l.length := by
  induction l with
  | nil => cases hx
  | cons a l ih =>
    rw [List.filterMap_cons]
    rcases List.mem_cons.mp hx with rfl | hmem
    · rw [hfx]
      have := List.length_filterMap_le f l
      simp only [List.length_cons]
      omega
    · cases hfa : f a with
      | none =>
        have := List.length_filterMap_le f l
        simp only [List.length_cons]
        omega
      | some b =>
        have := ih hmem
        simp only [List.length_cons]
        omega

/-- Empty metadata dictionary. -/
def emptyMeta : Metadata :=
  { author := none, pubTitle := none, date := none }

/-- Concrete section tuple titled "A". -/
def tdA : TextData := ("A".toList, [], emptyMeta)

/-- Concrete section tuple titled "B". -/
def tdB : TextData := ("B".toList, [], emptyMeta)

/-- Concrete section tuple titled "XYZ". -/
def tdXYZ : TextData := ("XYZ".toList, [], emptyMeta)

/-- Concrete completed-job result titled "A". -/
def resA : JobResult :=
  { title := "A".toList, text := [], summary := [], correlation := [], metadata := emptyMeta }

/-- Concrete completed-job result titled "B". -/
def resB : JobResult :=
  { title := "B".toList, text := [], summary := [], correlation := [], metadata := emptyMeta }

/-- A sink whose appends always succeed. -/
def okSink : Sink := fun _ => Except.ok ()

/-- A sink that rejects exactly the rows titled "A". -/
def failOnTitleA : Sink := fun r =>
  if r.title = "A".toList then Except.error "disk full".toList else Except.ok ()

/-- A sink whose appends always fail. -/
def alwaysFailSink : Sink := fun _ => Except.error "disk full".toList

/-- Skipping lemma for the drain loop: a completion that contributes no
row (failed job, or failed sink append) changes nothing about the rows
the rest of the batch produces, and its log message is emitted. -/
theorem drain_skip (sink : Sink) (xs ys : List (TextData × Except (List Char) JobResult))
    (c : TextData × Except (List Char) JobResult) (hc : drainedRow sink c = none) :
    (parallel_process_texts_in_threads sink (xs ++ c :: ys) (xs ++ c :: ys).length).rows =
      (parallel_process_texts_in_threads sink (xs ++ ys) (xs ++ ys).length).rows ∧
    drainLogMsg sink c ∈
      (parallel_process_texts_in_threads sink (xs ++ c :: ys) (xs ++ c :: ys).length).log := by
  constructor
  · rw [parallel_rows, parallel_rows, List.take_length, List.take_length,
      List.filterMap_append, List.filterMap_append, List.filterMap_cons, hc]
  · rw [parallel_log, List.take_length]
    apply List.mem_append_left
    rw [List.map_append, List.map_cons]
    exact List.mem_append_right _ (List.mem_cons_self _ _)

/-- C2.  As stated the claim is false: in final.py the call to
`save_to_csv_incremental` sits inside the same `try`/`except Exception`
that guards `future.result()` (lines 105-115), so an exception raised
by the sink's append is caught, logged, and skipped exactly like a job
failure — it is not escalated.  Concretely: the sink rejects job A's
row, the drain loop logs the failure and continues, and job B's row is
still appended, so the batch is not aborted. -/
theorem C2_counterexample :
    (parallel_process_texts_in_threads failOnTitleA
        [(tdA, Except.ok resA), (tdB, Except.ok resB)] 2).rows = [toRow resB] ∧
    (parallel_process_texts_in_threads failOnTitleA
        [(tdA, Except.ok resA), (tdB, Except.ok resB)] 2).log =
      [jobErrorMsg "disk full".toList, rowAppendedMsg] := by
  constructor <;> decide

/-- C2 (amended).  A failure of the sink's append operation is caught
by the same per-completion handler as a failure inside a job's own
pipeline: the error is logged, the completed row is dropped, and the
batch continues — sink failures are never escalated and never abort
the batch. -/
theorem C2_amended (sink : Sink) (xs ys : List (TextData × Except (List Char) JobResult))
    (td : TextData) (r : JobResult) (e : List Char)
    (h : sink (toRow r) = Except.error e) :
    (parallel_process_texts_in_threads sink (xs ++ (td, Except.ok r) :: ys)
        (xs ++ (td, Except.ok r) :: ys).length).rows =
      (parallel_process_texts_in_threads sink (xs ++ ys) (xs ++ ys).length).rows ∧
    jobErrorMsg e ∈
      (parallel_process_texts_in_threads sink (xs ++ (td, Except.ok r) :: ys)
        (xs ++ (td, Except.ok r) :: ys).length).log := by
  have hc : drainedRow sink (td, Except.ok r) = none := by
    simp [drainedRow, h]
  have hm : drainLogMsg sink (td, Except.ok r) = jobErrorMsg e := by
    simp [drainLogMsg, h]
  have := drain_skip sink xs ys (td, Except.ok r) hc
  rw [hm] at this
  exact this

def noComps : List (TextData × Except (List Char) JobResult) := []

theorem C2_amended_witness :
    (parallel_process_texts_in_threads alwaysFailSink
        (noComps ++ (tdA, Except.ok resA) :: noComps)
        (noComps ++ (tdA, Except.ok resA) :: noComps).length).rows =
      (parallel_process_texts_in_threads alwaysFailSink (noComps ++ noComps)
        (noComps ++ noComps).length).rows ∧
    jobErrorMsg "disk full".toList ∈
      (parallel_process_texts_in_threads alwaysFailSink
        (noComps ++ (tdA, Except.ok resA) :: noComps)
        (noComps ++ (tdA, Except.ok resA) :: noComps).length).log :=
  C2_amended alwaysFailSink noComps noComps tdA resA "disk full".toList rfl

/-- C3.  For every batch, the sink appends at most as many rows as
sections were submitted (one submitted job per entry of the completion
sequence), and strictly fewer whenever some job raises an error before
the deadline or some job misses the deadline. -/
theorem C3_sink_row_bound (sink : Sink)
    (completions : List (TextData × Except (List Char) JobResult)) (k : Nat) :
    (parallel_process_texts_in_threads sink completions k).rows.length ≤ completions.length ∧
    ((∃ c ∈ completions.take k, ∃ e, c.2 = Except.error e) ∨ k < completions.length →
      (parallel_process_texts_in_threads sink completions k).rows.length <
        completions.length) := by
  have hrows := parallel_rows sink completions k
  have hlen1 : ((completions.take k).filterMap (drainedRow sink)).length ≤
      (completions.take k).length := List.length_filterMap_le _ _
  have htk : (completions.take k).length ≤ completions.length := by
    rw [List.length_take]
    omega
  constructor
  · rw [hrows]
    omega
  · rintro (⟨c, hcmem, e, he⟩ | hk)
    · have hnone : drainedRow sink c = none := by
        unfold drainedRow
        rw [he]
      have := length_filterMap_lt_of_none hcmem hnone
      rw [hrows]
      omega
    · have : (completions.take k).length = k := by
        rw [List.length_take]
        omega
      rw [hrows]
      omega

theorem C3_sink_row_bound_witness :
    (parallel_process_texts_in_threads okSink [(tdA, Except.error "boom".toList)] 1).rows.length
      < 1 :=
  (C3_sink_row_bound okSink [(tdA, Except.error "boom".toList)] 1).2
    (Or.inl ⟨(tdA, Except.error "boom".toList), List.mem_singleton.mpr rfl,
      "boom".toList, rfl⟩)

/-- C6.  As stated the claim is false on one point: the handler of
final.py line 115 logs only `f"Error processing text: {e}"` — the
failing job's section title is not part of the message, although the
`future_to_text` dictionary would make it available.  Concretely: the
job for the section titled "XYZ" fails with error "boom", and the only
log message of the batch does not contain "XYZ". -/
theorem C6_counterexample :
    (parallel_process_texts_in_threads okSink [(tdXYZ, Except.error "boom".toList)] 1).log =
      [jobErrorMsg "boom".toList] ∧
    containsSub (jobErrorMsg "boom".toList) "XYZ".toList = false := by
  constructor <;> decide

/-- C6 (amended).  When a job raises an error, the drain loop logs the
error (without the section title), writes no row for that job, and
continues: the rows of the batch are exactly those the remaining jobs
produce, and the batch is never aborted by a single job failure. -/
theorem C6_amended (sink : Sink) (xs ys : List (TextData × Except (List Char) JobResult))
    (td : TextData) (e : List Char) :
    (parallel_process_texts_in_threads sink (xs ++ (td, Except.error e) :: ys)
        (xs ++ (td, Except.error e) :: ys).length).rows =
      (parallel_process_texts_in_threads sink (xs ++ ys) (xs ++ ys).length).rows ∧
    jobErrorMsg e ∈
      (parallel_process_texts_in_threads sink (xs ++ (td, Except.error e) :: ys)
        (xs ++ (td, Except.error e) :: ys).length).log := by
  have hc : drainedRow sink (td, Except.error e) = none := rfl
  have hm : drainLogMsg sink (td, Except.error e) = jobErrorMsg e := rfl
  have := drain_skip sink xs ys (td, Except.error e) hc
  rw [hm] at this
  exact this

/-- C7.  If the deadline elapses while jobs are outstanding
(`k < completions.length`), the drain loop logs exactly one timeout
notice, and the rows it appended are exactly those of a run over only
the completions that arrived before the deadline: results arriving
after the deadline are never collected and never written. -/
theorem C7_deadline (sink : Sink)
    (completions : List (TextData × Except (List Char) JobResult)) (k : Nat)
    (hk : k < completions.length) :
    (parallel_process_texts_in_threads sink completions k).log.count timeoutMsg = 1 ∧
    (parallel_process_texts_in_threads sink completions k).rows =
      (parallel_process_texts_in_threads sink (completions.take k) k).rows := by
  constructor
  · rw [parallel_log, if_pos hk, List.count_append]
    have h0 : ((completions.take k).map (drainLogMsg sink)).count timeoutMsg = 0 := by
      rw [List.count_eq_zero]
      intro hmem
      obtain ⟨c, _, hcmsg⟩ := List.mem_map.mp hmem
      exact drainLogMsg_ne_timeoutMsg sink c hcmsg
    rw [h0, List.count_singleton]
    simp
  · rw [parallel_rows, parallel_rows, List.take_take]
    simp

theorem C7_deadline_witness :
    (parallel_process_texts_in_threads okSink [(tdA, Except.ok resA)] 0).log.count timeoutMsg
        = 1 ∧
    (parallel_process_texts_in_threads okSink [(tdA, Except.ok resA)] 0).rows =
      (parallel_process_texts_in_threads okSink ([(tdA, Except.ok resA)].take 0) 0).rows :=
  C7_deadline okSink [(tdA, Except.ok resA)] 0 (by decide)

/-- The least offset of the suffix at which the title pattern matches:
the declarative reading of "the next occurrence of the same title's
pattern in the document suffix". -/
def leastMatchPos (suffix title : List Char) : Option Nat :=
  (List.range (suffix.length + 1)).find? (fun j => (patMatchEnd suffix title j).isSome)

/-- The body the specification's boundary rule (amended at the
offset-0 corner) assigns to the occurrence of `title` whose pattern
match ends at `start`: slice from `start` to the least next match of
the same title's pattern, to the end of the document when there is
none or when it begins at offset 0 of the suffix, and trim. -/
def bodySpec (content title : List Char) (start : Nat) : List Char :=
  match leastMatchPos (content.drop start) title with
  | some p => if p ≠ 0 then pyStrip ((content.drop start).take p) else pyStrip (content.drop start)
  | none => pyStrip (content.drop start)

theorem finditerFrom_head (content title : List Char) :
    ∀ (n pos : Nat), content.length + 1 - pos ≤ n →
      ((finditerFrom content title pos).head?).map Prod.fst =
        (List.range' pos (content.length + 1 - pos)).find?
          (fun j => (patMatchEnd content title j).isSome) := by
  intro n
  induction n with
  | zero =>
    intro pos hp
    have h0 : content.length + 1 - pos = 0 := by omega
    rw [finditerFrom_step, if_pos (by omega), h0]
    rfl
  | succ n ih =>
    intro pos hp
    by_cases hpos : content.length < pos
    · have h0 : content.length + 1 - pos = 0 := by omega
      rw [finditerFrom_step, if_pos hpos, h0]
      rfl
    · have hn : content.length + 1 - pos = (content.length - pos) + 1 := by omega
      rw [finditerFrom_step, if_neg hpos, hn, List.range'_succ]
      cases hm : patMatchEnd content title pos with
      | some e =>
        rw [List.find?_cons_of_pos _ (by rw [hm]; rfl)]
        rfl
      | none =>
        rw [List.find?_cons_of_neg _ (by rw [hm]; simp)]
        have h2 : content.length + 1 - (pos + 1) = content.length - pos := by omega
        rw [ih (pos + 1) (by omega), h2]

theorem finditer_head (suffix title : List Char) :
    ((finditer suffix title).head?).map Prod.fst = leastMatchPos suffix title := by
  unfold finditer leastMatchPos
  rw [finditerFrom_head suffix title (suffix.length + 1) 0 (by omega), List.range_eq_range']
  norm_num

theorem sectionRaw_eq_bodySpec (content title : List Char) (start : Nat) :
    sectionRaw content title start = bodySpec content title start := by
  unfold sectionRaw bodySpec
  rw [finditer_head]

/-- C1.  As stated the claim is false at the offset-0 corner: in
final.py line 50 the boundary test is the truthiness test
`if next_title_pos`, which treats a next occurrence at offset 0 of the
suffix (two consecutive title lines) the same as no next occurrence,
so the body extends to the end of the document instead of being
empty.  Concretely, in the document "T\nT\nx" with title "T" the
pattern matches once (ending at offset 2), the next occurrence of the
same pattern in the suffix "T\nx" is at offset 0, and the produced
body is "T\nx", not the empty string the claim requires. -/
theorem C1_counterexample :
    finditer "T\nT\nx".toList "T".toList = [(0, 2)] ∧
    leastMatchPos ("T\nT\nx".toList.drop 2) "T".toList = some 0 ∧
    sectionRawBodies "T\nT\nx".toList ["T".toList] = ["T\nx".toList] ∧
    "T\nx".toList ≠ ([] : List Char) := by
  refine ⟨by decide, by decide, by decide, by decide⟩

/-- C1 (amended).  For every document and every title occurrence found
by the segmenter, the section body starts at the offset immediately
after the matched newline and ends at the least start offset of the
next occurrence of the same title's pattern in the document suffix
beginning at start, except that when no such occurrence exists — or
when it begins at offset 0 of the suffix (two consecutive title
lines) — the body extends to the end of the document; the body is the
slice, trimmed. -/
theorem C1_amended (content : List Char) (titles : List (List Char)) :
    sectionRawBodies content titles =
      titles.flatMap (fun t =>
        (finditer content t).map (fun m => bodySpec content t m.2)) := by
  unfold sectionRawBodies
  congr 1
  funext t
  congr 1
  funext m
  exact sectionRaw_eq_bodySpec content t m.2

/-- C5.  As stated the claim is false: the segmenter loops over the
title sequence exactly as produced by the TitleIndexer, which retains
duplicates, so a title listed twice in the TOC and matching K times in
the body yields 2·K sections, not K.  Concretely, in the document
"1. T\n2. T\nT\nA\nT\nB" the TitleIndexer yields the title "T" twice,
the title pattern has exactly 2 occurrences in the document, and the
segmenter produces 4 sections, not 2. -/
theorem C5_counterexample :
    extract_titles_from_toc "1. T\n2. T\nT\nA\nT\nB".toList = ["T".toList, "T".toList] ∧
    (finditer "1. T\n2. T\nT\nA\nT\nB".toList "T".toList).length = 2 ∧
    (extract_text_beneath_duplicates "1. T\n2. T\nT\nA\nT\nB".toList
        (extract_titles_from_toc "1. T\n2. T\nT\nA\nT\nB".toList)).length = 4 := by
  refine ⟨by decide, by decide, by decide⟩

/-- C5 (amended).  Each element of the title sequence (duplicates
counted separately) contributes exactly one section per
non-overlapping occurrence of its pattern in the document: the titles
of the produced sections are, in order, each title-sequence element
repeated once per occurrence, and the number of sections is the sum
over title-sequence elements of their occurrence counts. -/
theorem C5_amended (content : List Char) (titles : List (List Char)) :
    (extract_text_beneath_duplicates content titles).map (fun s => s.1) =
      titles.flatMap (fun t => List.replicate (finditer content t).length t) ∧
    (extract_text_beneath_duplicates content titles).length =
      (titles.map (fun t => (finditer content t).length)).sum := by
  constructor
  · unfold extract_text_beneath_duplicates
    rw [List.map_flatMap]
    congr 1
    funext t
    rw [List.map_map]
    exact List.map_const _ _
  · unfold extract_text_beneath_duplicates
    rw [List.length_flatMap]
    have hfun : (List.length ∘ fun title =>
        (finditer content title).map (fun m =>
          (title, clean_text (sectionRaw content title m.2),
            extract_metadata (sectionRaw content title m.2)))) =
        fun t => (finditer content t).length := by
      funext t
      simp
    rw [hfun]

/-- A concrete summarizer capability for counterexamples (identity on
the chunk text); the runs below never invoke it. -/
def idSummarizer : List Char → List Char := fun s => s

/-- Document whose single section body differs, for the correlation
filter, between its raw form ("climate" and "change" split across a
line break) and its normalized form. -/
def doc4 : List Char := "1. T\nT\nclimate\nchange and insurance stuff.\n".toList

/-- C4.  As stated the claim is false: the tuple stored by the
segmenter (final.py line 54) carries `cleaned_text`, so the
correlation filter of `process_text_item_in_threads` runs on the
normalized body, not the raw body.  Concretely, in `doc4` the raw body
is "climate\nchange and insurance stuff." — on the raw text no
sentence contains the substring "climate change", so the claim
predicts the no-correlation sentinel; the pipeline instead filters the
normalized text "climate change and insurance stuff.", retains its
first sentence, and returns the short-text sentinel of the
summary driver. -/
theorem C4_counterexample :
    (sectionRawBodies doc4 (extract_titles_from_toc doc4)).map
        (fun raw => summarize_climate_insurance_correlation idSummarizer raw) =
      ["No correlation between climate change and insurance found.".toList] ∧
    (extract_text_beneath_duplicates doc4 (extract_titles_from_toc doc4)).map
        (fun td => (process_text_item_in_threads idSummarizer td).correlation) =
      ["Text too short to summarize".toList] ∧
    (extract_text_beneath_duplicates doc4 (extract_titles_from_toc doc4)).map
        (fun td => (process_text_item_in_threads idSummarizer td).correlation) ≠
      (sectionRawBodies doc4 (extract_titles_from_toc doc4)).map
        (fun raw => summarize_climate_insurance_correlation idSummarizer raw) := by
  refine ⟨by decide, by decide, by decide⟩

/-- C4 (amended).  The CorrelationExtractor operates on the Section's
normalized body text: for every document, title sequence and
summarizer, the correlation component each job computes equals the
correlation summarizer applied to the cleaned raw body; and whenever
no sentence of the input passes the two-keyword filter, the result is
the fixed sentinel independently of the summarizer capability (no
external call is made). -/
theorem C4_amended :
    (∀ (content : List Char) (titles : List (List Char)) (summarizer : List Char → List Char),
      (extract_text_beneath_duplicates content titles).map
          (fun td => (process_text_item_in_threads summarizer td).correlation) =
        (sectionRawBodies content titles).map
          (fun raw => summarize_climate_insurance_correlation summarizer (clean_text raw))) ∧
    (∀ (s1 s2 : List Char → List Char) (text : List Char),
      ((splitTerm text).filter corrKeywords).isEmpty = true →
        summarize_climate_insurance_correlation s1 text =
          "No correlation between climate change and insurance found.".toList ∧
        summarize_climate_insurance_correlation s1 text =
          summarize_climate_insurance_correlation s2 text) := by
  constructor
  · intro content titles summarizer
    unfold extract_text_beneath_duplicates sectionRawBodies
    rw [List.map_flatMap, List.map_flatMap]
    congr 1
    funext t
    rw [List.map_map, List.map_map]
    rfl
  · intro s1 s2 text hempty
    unfold summarize_climate_insurance_correlation
    rw [if_pos hempty, if_pos hempty]
    exact ⟨rfl, rfl⟩

theorem C4_amended_witness :
    summarize_climate_insurance_correlation idSummarizer "x".toList =
      "No correlation between climate change and insurance found.".toList ∧
    summarize_climate_insurance_correlation idSummarizer "x".toList =
      summarize_climate_insurance_correlation (fun _ => []) "x".toList :=
  C4_amended.2 idSummarizer (fun _ => []) "x".toList (by decide)

theorem matchTitle_capture {cs cap rest : List Char}
    (h : matchTitle cs = some (cap, rest)) :
    ∃ base : List Char, cap = (base.dropWhile isPySpace).takeWhile (fun d => d ≠ '\n') := by
  unfold matchTitle at h
  split at h
  · exact absurd h (by simp)
  next c hc =>
    split at h
    · next =>
      split at h
      next heq =>
        split at h
        next w hw =>
          split at h
          next =>
            refine ⟨(cs.dropWhile Char.isDigit).tail, ?_⟩
            cases h
            rfl
          · exact absurd h (by simp)
        next => exact absurd h (by simp)
      next => exact absurd h (by simp)
    · exact absurd h (by simp)

theorem dropWhile_head_false {p : Char → Bool} {d : Char} {ds : List Char} :
    ∀ {l : List Char}, l.dropWhile p = d :: ds → p d = false := by
  intro l h
  induction l with
  | nil => exact absurd h (by simp)
  | cons a as ih =>
    rw [List.dropWhile_cons] at h
    by_cases hp : p a
    · rw [if_pos hp] at h
      exact ih h
    · rw [if_neg hp] at h
      cases h
      simpa using hp

theorem capture_no_leading_ws (base : List Char) :
    ((base.dropWhile isPySpace).takeWhile (fun d => d ≠ '\n')).takeWhile isPySpace = [] := by
  cases hc : (base.dropWhile isPySpace).takeWhile (fun d => d ≠ '\n') with
  | nil => rfl
  | cons d rest =>
    have hpre := List.takeWhile_prefix (l := base.dropWhile isPySpace)
      (fun d => d ≠ '\n')
    rw [hc] at hpre
    obtain ⟨tail2, htail⟩ := hpre
    rw [List.cons_append] at htail
    have hd : isPySpace d = false := dropWhile_head_false htail.symm
    rw [List.takeWhile_cons, if_neg (by rw [hd]; simp)]

theorem capture_no_newline (base : List Char) :
    '\n' ∉ (base.dropWhile isPySpace).takeWhile (fun d => d ≠ '\n') := by
  intro hmem
  have := List.mem_takeWhile_imp hmem
  simp at this

theorem scanTitles_mem :
    ∀ (n : Nat) (bol : Bool) (cs : List Char), cs.length ≤ n →
      ∀ t ∈ scanTitles bol cs, t.takeWhile isPySpace = [] ∧ '\n' ∉ t := by
  intro n
  induction n with
  | zero =>
    intro bol cs h t ht
    have : cs = [] := List.length_eq_zero.mp (Nat.le_zero.mp h)
    subst this
    rw [scanTitles_nil] at ht
    cases ht
  | succ n ih =>
    intro bol cs h t ht
    cases cs with
    | nil =>
      rw [scanTitles_nil] at ht
      cases ht
    | cons c rest =>
      rw [scanTitles_cons] at ht
      simp only [List.length_cons] at h
      cases bol with
      | false => exact ih (c = '\n') rest (by omega) t ht
      | true =>
        rw [if_pos rfl] at ht
        cases hm : matchTitle (c :: rest) with
        | none =>
          rw [hm] at ht
          exact ih (c = '\n') rest (by omega) t ht
        | some p =>
          obtain ⟨cap, r2⟩ := p
          rw [hm] at ht
          rcases List.mem_cons.mp ht with rfl | hmem
          · obtain ⟨base, hbase⟩ := matchTitle_capture hm
            rw [hbase]
            exact ⟨capture_no_leading_ws base, capture_no_newline base⟩
          · have hlen := matchTitle_length_lt hm
            simp only [List.length_cons] at hlen
            exact ih false r2 (by omega) t hmem

/-- C9.  As stated the claim is false on one point: the capture group
`(.*)` of `^\d+\.\s+(.*)` extends to the end of the line, so a
captured title keeps its trailing whitespace (only leading whitespace
is consumed, by the greedy `\s+` separator).  Concretely, the TOC line
"1. foo " yields the title "foo " — not "foo" as the claim's
"leading and trailing whitespace trimmed by the match" requires. -/
theorem C9_counterexample :
    extract_titles_from_toc "1. foo ".toList = ["foo ".toList] ∧
    pyStrip "foo ".toList ≠ "foo ".toList := by
  refine ⟨by decide, by decide⟩

/-- C9 (amended).  The TitleIndexer returns the captured rest-of-line
texts of lines of the form `<integer>.<whitespace><rest-of-line>`, in
document order with duplicates retained; each captured title has its
leading whitespace consumed by the greedy separator match (and so
starts with a non-whitespace character when nonempty) and contains no
newline, while trailing whitespace is retained; empty input yields the
empty sequence, not an error. -/
theorem C9_amended :
    (∀ (content : List Char), ∀ t ∈ extract_titles_from_toc content,
      t.takeWhile isPySpace = [] ∧ '\n' ∉ t) ∧
    extract_titles_from_toc [] = [] := by
  constructor
  · intro content t ht
    exact scanTitles_mem content.length true content (le_refl _) t ht
  · rfl

theorem C9_amended_witness :
    ("foo".toList.takeWhile isPySpace = [] ∧ '\n' ∉ "foo".toList) ∧
    extract_titles_from_toc [] = [] :=
  ⟨C9_amended.1 "1. foo".toList "foo".toList (by decide), C9_amended.2⟩

/-- C10.  The whitespace separator `\s+` of the TOC pattern matches
newlines, so it is not confined to the marker's own line: on the input
"1.\nfoo" (a marker line with no title text) the indexer returns
"foo", the text of the following line, as the entry's title; and on
"2.   " (a marker followed only by trailing whitespace at end of
input) it returns the empty-string title. -/
theorem C10_separator_crosses_lines :
    extract_titles_from_toc "1.\nfoo".toList = ["foo".toList] ∧
    extract_titles_from_toc "2.   ".toList = [[]] := by
  refine ⟨by decide, by decide⟩

/-- Whether some suffix of the text begins with a URL match — i.e.
whether `re.sub(r'http[s]?://\S+', '', ·)` would find a match. -/
def hasUrl : List Char → Bool
  | [] => false
  | c :: cs => (matchUrl (c :: cs)).isSome || hasUrl cs

/-- `a` agrees with `b` on every non-whitespace prefix of `a` (used to
transfer URL-match failure between a transformed text and its source:
a URL head is a non-whitespace prefix). -/
def nwAgree (a b : List Char) : Prop :=
  ∀ n : Nat, n ≤ a.length → (∀ x ∈ a.take n, isPySpace x = false) → a.take n = b.take n

theorem nwAgree_cons {a b : List Char} (h : nwAgree a b) (c : Char) :
    nwAgree (c :: a) (c :: b) := by
  intro n hn hnw
  cases n with
  | zero => rfl
  | succ n =>
    simp only [List.take_succ_cons] at hnw ⊢
    simp only [List.length_cons] at hn
    have := h n (by omega) (fun x hx => hnw x (List.mem_cons_of_mem _ hx))
    rw [this]

theorem nwAgree_of_head_ws {a : List Char}
    (h : ∀ c, a.head? = some c → isPySpace c = true) (b : List Char) : nwAgree a b := by
  intro n hn hnw
  cases a with
  | nil =>
    simp at hn
    subst hn
    rfl
  | cons c t =>
    cases n with
    | zero => rfl
    | succ n =>
      have hc := h c rfl
      have := hnw c (by simp)
      rw [hc] at this
      cases this

theorem nwAgree_take (l : List Char) (k : Nat) : nwAgree (l.take k) l := by
  intro n hn _
  rw [List.take_take]
  rw [List.length_take] at hn
  have : min n k = n := by omega
  rw [this]

theorem isSome_matchUrl {l : List Char} (h : (matchUrl l).isSome = true) :
    ∃ n, urlSchemeLen l = some n ∧ ∃ d, l[n]? = some d ∧ isPySpace d = false := by
  unfold matchUrl at h
  split at h
  · exact absurd h (by simp)
  next n hs =>
    split at h
    · exact absurd h (by simp)
    next c hh =>
      split at h
      next hw => exact absurd h (by simp)
      next hw =>
        rw [List.head?_drop] at hh
        exact ⟨n, hs, c, hh, by simpa using hw⟩

theorem matchUrl_isSome_of {l : List Char} {n : Nat} {d : Char}
    (hs : urlSchemeLen l = some n) (hd : l[n]? = some d) (hw : isPySpace d = false) :
    (matchUrl l).isSome = true := by
  simp only [matchUrl, hs, List.head?_drop, hd, hw]
  simp

theorem urlScheme_chars_https : ∀ x ∈ "https://".toList, isPySpace x = false := by decide

theorem urlScheme_chars_http : ∀ x ∈ "http://".toList, isPySpace x = false := by decide

theorem matchUrl_none_transfer {a b : List Char} (hab : nwAgree a b)
    (hb : matchUrl b = none) : matchUrl a = none := by
  cases hma : matchUrl a with
  | none => rfl
  | some r =>
    exfalso
    obtain ⟨n, hs, d, hd, hw⟩ := isSome_matchUrl (l := a) (by rw [hma]; rfl)
    have hlen : n + 1 ≤ a.length := by
      by_contra hcon
      rw [List.getElem?_eq_none (by omega)] at hd
      cases hd
    have htake : a.take (n + 1) = a.take n ++ [d] := by
      rw [List.take_succ, hd]
      rfl
    have hgetb : a.take (n + 1) = b.take (n + 1) → b[n]? = some d := by
      intro heq
      have h1 : (a.take (n + 1))[n]? = (b.take (n + 1))[n]? := by rw [heq]
      rw [List.getElem?_take, List.getElem?_take, if_pos (by omega), if_pos (by omega)] at h1
      rw [← h1, hd]
    unfold urlSchemeLen at hs
    split at hs
    next h8 =>
      cases hs
      have hnw : ∀ x ∈ a.take (8 + 1), isPySpace x = false := by
        intro x hx
        rw [htake] at hx
        rcases List.mem_append.mp hx with hx1 | hx2
        · rw [h8] at hx1
          exact urlScheme_chars_https x hx1
        · rw [List.mem_singleton.mp hx2]
          exact hw
      have heq := hab (8 + 1) hlen hnw
      have hb8 : b.take 8 = "https://".toList := by
        have : (a.take (8 + 1)).take 8 = (b.take (8 + 1)).take 8 := by rw [heq]
        rw [List.take_take, List.take_take] at this
        norm_num at this
        rw [← this, h8]
      have hok := matchUrl_isSome_of (l := b) (n := 8) (d := d)
        (by unfold urlSchemeLen; rw [if_pos hb8]) (hgetb heq) hw
      rw [hb] at hok
      cases hok
    next h8 =>
      split at hs
      next h7 =>
        cases hs
        have hnw : ∀ x ∈ a.take (7 + 1), isPySpace x = false := by
          intro x hx
          rw [htake] at hx
          rcases List.mem_append.mp hx with hx1 | hx2
          · rw [h7] at hx1
            exact urlScheme_chars_http x hx1
          · rw [List.mem_singleton.mp hx2]
            exact hw
        have heq := hab (7 + 1) hlen hnw
        have hb7 : b.take 7 = "http://".toList := by
          have : (a.take (7 + 1)).take 7 = (b.take (7 + 1)).take 7 := by rw [heq]
          rw [List.take_take, List.take_take] at this
          norm_num at this
          rw [← this, h7]
        have hb8 : ¬ b.take 8 = "https://".toList := by
          intro hcon
          have : b.take 7 = "https:/".toList := by
            have h78 : (b.take 8).take 7 = b.take 7 := by
              rw [List.take_take]
              norm_num
            rw [← h78, hcon]
            decide
          rw [hb7] at this
          exact absurd this (by decide)
        have hok := matchUrl_isSome_of (l := b) (n := 7) (d := d)
          (by unfold urlSchemeLen; rw [if_neg hb8, if_pos hb7]) (hgetb heq) hw
        rw [hb] at hok
        cases hok
      next => exact absurd hs (by simp)

theorem matchUrl_ws_head {w : Char} (hw : isPySpace w = true) (t : List Char) :
    matchUrl (w :: t) = none := by
  have hne : w ≠ 'h' := by
    intro heq
    rw [heq] at hw
    exact absurd hw (by decide)
  unfold matchUrl urlSchemeLen
  have h8 : ¬ (w :: t).take 8 = "https://".toList := by
    intro hcon
    rw [List.take_succ_cons] at hcon
    exact hne (List.head_eq_of_cons_eq hcon)
  have h7 : ¬ (w :: t).take 7 = "http://".toList := by
    intro hcon
    rw [List.take_succ_cons] at hcon
    exact hne (List.head_eq_of_cons_eq hcon)
  rw [if_neg h8, if_neg h7]

theorem matchUrl_rest_head {l rest : List Char} (h : matchUrl l = some rest) :
    ∀ d, rest.head? = some d → isPySpace d = true := by
  unfold matchUrl at h
  split at h
  · exact absurd h (by simp)
  next n hs =>
    split at h
    · exact absurd h (by simp)
    next c hh =>
      split at h
      next hw => exact absurd h (by simp)
      next hw =>
        cases h
        intro d hd
        cases hr : (l.drop n).dropWhile (fun x => !isPySpace x) with
        | nil => rw [hr] at hd; cases hd
        | cons e es =>
          rw [hr] at hd
          cases hd
          have := dropWhile_head_false hr
          simpa using this

theorem removeUrls_head_ws {z : List Char}
    (h : ∀ c, z.head? = some c → isPySpace c = true) :
    ∀ c, (removeUrls z).head? = some c → isPySpace c = true := by
  cases z with
  | nil =>
    intro c hc
    rw [removeUrls_nil] at hc
    cases hc
  | cons w t =>
    have hw := h w rfl
    rw [removeUrls_cons, matchUrl_ws_head hw]
    intro c hc
    cases hc
    exact hw

theorem nwAgree_removeUrls : ∀ (cs : List Char), nwAgree (removeUrls cs) cs := by
  intro cs
  induction cs with
  | nil =>
    rw [removeUrls_nil]
    exact nwAgree_of_head_ws (fun c hc => by cases hc) []
  | cons c cs ih =>
    rw [removeUrls_cons]
    cases hm : matchUrl (c :: cs) with
    | some rest =>
      exact nwAgree_of_head_ws (removeUrls_head_ws (matchUrl_rest_head hm)) (c :: cs)
    | none => exact nwAgree_cons ih c

theorem hasUrl_cons (c : Char) (cs : List Char) :
    hasUrl (c :: cs) = ((matchUrl (c :: cs)).isSome || hasUrl cs) := rfl

theorem hasUrl_tail_false {c : Char} {cs : List Char} (h : hasUrl (c :: cs) = false) :
    hasUrl cs = false := by
  rw [hasUrl_cons] at h
  exact (Bool.or_eq_false_iff.mp h).2

theorem matchUrl_none_of_hasUrl_false {c : Char} {cs : List Char}
    (h : hasUrl (c :: cs) = false) : matchUrl (c :: cs) = none := by
  rw [hasUrl_cons] at h
  have := (Bool.or_eq_false_iff.mp h).1
  cases hm : matchUrl (c :: cs) with
  | none => rfl
  | some r => rw [hm] at this; cases this

theorem hasUrl_dropWhile_false (p : Char → Bool) :
    ∀ (cs : List Char), hasUrl cs = false → hasUrl (cs.dropWhile p) = false := by
  intro cs h
  induction cs with
  | nil => exact h
  | cons c cs ih =>
    rw [List.dropWhile_cons]
    by_cases hp : p c
    · rw [if_pos hp]
      exact ih (hasUrl_tail_false h)
    · rw [if_neg hp]
      exact h

theorem hasUrl_take_false : ∀ (cs : List Char) (k : Nat), hasUrl cs = false →
    hasUrl (cs.take k) = false := by
  intro cs
  induction cs with
  | nil =>
    intro k h
    rw [List.take_nil]
    exact h
  | cons c cs ih =>
    intro k h
    cases k with
    | zero => rfl
    | succ k =>
      rw [List.take_succ_cons, hasUrl_cons]
      have h1 : hasUrl (cs.take k) = false := ih k (hasUrl_tail_false h)
      have h2 : matchUrl (c :: cs.take k) = none :=
        matchUrl_none_transfer (nwAgree_cons (nwAgree_take cs k) c)
          (matchUrl_none_of_hasUrl_false h)
      rw [h2, h1]
      rfl

theorem hasUrl_removeUrls : ∀ (n : Nat) (cs : List Char), cs.length ≤ n →
    hasUrl (removeUrls cs) = false := by
  intro n
  induction n with
  | zero =>
    intro cs h
    have : cs = [] := List.length_eq_zero.mp (Nat.le_zero.mp h)
    subst this
    rfl
  | succ n ih =>
    intro cs h
    cases cs with
    | nil => rfl
    | cons c cs =>
      rw [removeUrls_cons]
      simp only [List.length_cons] at h
      cases hm : matchUrl (c :: cs) with
      | some rest =>
        have hlt := matchUrl_length_lt hm
        simp only [List.length_cons] at hlt
        exact ih rest (by omega)
      | none =>
        rw [hasUrl_cons]
        have h1 : hasUrl (removeUrls cs) = false := ih cs (by omega)
        have h2 : matchUrl (c :: removeUrls cs) = none :=
          matchUrl_none_transfer (nwAgree_cons (nwAgree_removeUrls cs) c) hm
        rw [h1, h2]
        rfl

theorem removeUrls_of_urlFree : ∀ (cs : List Char), hasUrl cs = false →
    removeUrls cs = cs := by
  intro cs h
  induction cs with
  | nil => rfl
  | cons c cs ih =>
    rw [removeUrls_cons, matchUrl_none_of_hasUrl_false h]
    rw [ih (hasUrl_tail_false h)]

theorem collapseWsAux_true_eq (cs : List Char) :
    collapseWsAux true cs = collapseWs (cs.dropWhile isPySpace) := by
  induction cs with
  | nil => rfl
  | cons c cs ih =>
    by_cases hc : isPySpace c
    · show (if isPySpace c then collapseWsAux true cs else c :: collapseWsAux false cs) = _
      rw [if_pos hc, List.dropWhile_cons, if_pos hc]
      exact ih
    · show (if isPySpace c then collapseWsAux true cs else c :: collapseWsAux false cs) = _
      rw [if_neg hc, List.dropWhile_cons, if_neg hc]
      show c :: collapseWsAux false cs =
        (if isPySpace c then ' ' :: collapseWsAux true cs else c :: collapseWsAux false cs)
      rw [if_neg hc]

theorem collapseWs_cons (c : Char) (cs : List Char) :
    collapseWs (c :: cs) =
      if isPySpace c then ' ' :: collapseWs (cs.dropWhile isPySpace)
      else c :: collapseWs cs := by
  show (if isPySpace c then ' ' :: collapseWsAux true cs else c :: collapseWsAux false cs) = _
  by_cases hc : isPySpace c
  · rw [if_pos hc, if_pos hc, collapseWsAux_true_eq]
  · rw [if_neg hc, if_neg hc]
    rfl

theorem nwAgree_collapseWs : ∀ (cs : List Char), nwAgree (collapseWs cs) cs := by
  intro cs
  induction cs with
  | nil => exact nwAgree_of_head_ws (fun c hc => by cases hc) []
  | cons c cs ih =>
    rw [collapseWs_cons]
    by_cases hc : isPySpace c
    · rw [if_pos hc]
      exact nwAgree_of_head_ws (fun d hd => by cases hd; exact (by decide)) (c :: cs)
    · rw [if_neg hc]
      exact nwAgree_cons ih c

theorem hasUrl_collapseWs : ∀ (n : Nat) (cs : List Char), cs.length ≤ n →
    hasUrl cs = false → hasUrl (collapseWs cs) = false := by
  intro n
  induction n with
  | zero =>
    intro cs hl _
    have : cs = [] := List.length_eq_zero.mp (Nat.le_zero.mp hl)
    subst this
    rfl
  | succ n ih =>
    intro cs hl h
    cases cs with
    | nil => rfl
    | cons c cs =>
      rw [collapseWs_cons]
      simp only [List.length_cons] at hl
      by_cases hc : isPySpace c
      · rw [if_pos hc, hasUrl_cons]
        have h1 : hasUrl (collapseWs (cs.dropWhile isPySpace)) = false := by
          apply ih (cs.dropWhile isPySpace)
          · have := (List.dropWhile_suffix (l := cs) isPySpace).length_le
            omega
          · exact hasUrl_dropWhile_false isPySpace cs (hasUrl_tail_false h)
        have h2 : matchUrl (' ' :: collapseWs (cs.dropWhile isPySpace)) = none :=
          matchUrl_ws_head (by decide) _
        rw [h1, h2]
        rfl
      · rw [if_neg hc, hasUrl_cons]
        have h1 : hasUrl (collapseWs cs) = false := ih cs (by omega) (hasUrl_tail_false h)
        have h2 : matchUrl (c :: collapseWs cs) = none :=
          matchUrl_none_transfer (nwAgree_cons (nwAgree_collapseWs cs) c)
            (matchUrl_none_of_hasUrl_false h)
        rw [h1, h2]
        rfl

theorem hasUrl_append_left_false {a t : List Char} (h : hasUrl (a ++ t) = false) :
    hasUrl a = false := by
  have ha : a = (a ++ t).take a.length := (List.take_left a t).symm
  rw [ha]
  exact hasUrl_take_false _ _ h

theorem hasUrl_rdropWhile_false (p : Char → Bool) (cs : List Char)
    (h : hasUrl cs = false) : hasUrl (cs.rdropWhile p) = false := by
  obtain ⟨t, ht⟩ := List.rdropWhile_prefix p cs
  rw [← ht] at h
  exact hasUrl_append_left_false h

theorem hasUrl_pyStrip_false (cs : List Char) (h : hasUrl cs = false) :
    hasUrl (pyStrip cs) = false := by
  unfold pyStrip
  exact hasUrl_rdropWhile_false isPySpace _ (hasUrl_dropWhile_false isPySpace cs h)

/-- Every whitespace character of the text is a plain space. -/
def wsSingle (cs : List Char) : Bool :=
  cs.all (fun c => !isPySpace c || c = ' ')

/-- No two adjacent whitespace characters. -/
def noAdjWs : List Char → Bool
  | a :: b :: t => (!(isPySpace a && isPySpace b)) && noAdjWs (b :: t)
  | _ => true

theorem noAdjWs_tail {a : Char} {l : List Char} (h : noAdjWs (a :: l) = true) :
    noAdjWs l = true := by
  cases l with
  | nil => rfl
  | cons b t =>
    have : noAdjWs (a :: b :: t) = ((!(isPySpace a && isPySpace b)) && noAdjWs (b :: t)) := rfl
    rw [this, Bool.and_eq_true] at h
    exact h.2

theorem noAdjWs_cons_of {a : Char} {l : List Char} (hl : noAdjWs l = true)
    (h : ∀ b, l.head? = some b → (isPySpace a && isPySpace b) = false) :
    noAdjWs (a :: l) = true := by
  cases l with
  | nil => rfl
  | cons b t =>
    show ((!(isPySpace a && isPySpace b)) && noAdjWs (b :: t)) = true
    rw [h b rfl, hl]
    rfl

theorem collapseAux_true_head :
    ∀ (cs : List Char) (d : Char), (collapseWsAux true cs).head? = some d →
      isPySpace d = false := by
  intro cs
  induction cs with
  | nil => intro d hd; cases hd
  | cons c cs ih =>
    intro d hd
    by_cases hc : isPySpace c
    · rw [show collapseWsAux true (c :: cs) =
          (if isPySpace c then collapseWsAux true cs else c :: collapseWsAux false cs) from rfl,
        if_pos hc] at hd
      exact ih d hd
    · rw [show collapseWsAux true (c :: cs) =
          (if isPySpace c then collapseWsAux true cs else c :: collapseWsAux false cs) from rfl,
        if_neg hc] at hd
      cases hd
      simpa using hc

theorem wsSingle_collapseAux : ∀ (cs : List Char) (b : Bool),
    wsSingle (collapseWsAux b cs) = true := by
  intro cs
  induction cs with
  | nil => intro b; cases b <;> rfl
  | cons c cs ih =>
    intro b
    by_cases hc : isPySpace c
    · cases b with
      | true =>
        show wsSingle (if isPySpace c then collapseWsAux true cs
          else c :: collapseWsAux false cs) = true
        rw [if_pos hc]
        exact ih true
      | false =>
        show wsSingle (if isPySpace c then ' ' :: collapseWsAux true cs
          else c :: collapseWsAux false cs) = true
        rw [if_pos hc]
        rw [wsSingle, List.all_cons]
        have := ih true
        rw [wsSingle] at this
        rw [this]
        rfl
    · have hb : collapseWsAux b (c :: cs) = c :: collapseWsAux false cs := by
        cases b with
        | true =>
          show (if isPySpace c then collapseWsAux true cs
            else c :: collapseWsAux false cs) = _
          rw [if_neg hc]
        | false =>
          show (if isPySpace c then ' ' :: collapseWsAux true cs
            else c :: collapseWsAux false cs) = _
          rw [if_neg hc]
      rw [hb, wsSingle, List.all_cons]
      have := ih false
      rw [wsSingle] at this
      rw [this]
      simp [hc]

theorem noAdjWs_collapseAux : ∀ (cs : List Char) (b : Bool),
    noAdjWs (collapseWsAux b cs) = true := by
  intro cs
  induction cs with
  | nil => intro b; cases b <;> rfl
  | cons c cs ih =>
    intro b
    by_cases hc : isPySpace c
    · cases b with
      | true =>
        show noAdjWs (if isPySpace c then collapseWsAux true cs
          else c :: collapseWsAux false cs) = true
        rw [if_pos hc]
        exact ih true
      | false =>
        show noAdjWs (if isPySpace c then ' ' :: collapseWsAux true cs
          else c :: collapseWsAux false cs) = true
        rw [if_pos hc]
        apply noAdjWs_cons_of (ih true)
        intro d hd
        rw [collapseAux_true_head cs d hd]
        rw [Bool.and_false]
    · have hb : collapseWsAux b (c :: cs) = c :: collapseWsAux false cs := by
        cases b with
        | true =>
          show (if isPySpace c then collapseWsAux true cs
            else c :: collapseWsAux false cs) = _
          rw [if_neg hc]
        | false =>
          show (if isPySpace c then ' ' :: collapseWsAux true cs
            else c :: collapseWsAux false cs) = _
          rw [if_neg hc]
      rw [hb]
      apply noAdjWs_cons_of (ih false)
      intro d _
      rw [show isPySpace c = false from by simpa using hc]
      rfl

theorem dropWhile_eq_self_of_head {p : Char → Bool} {l : List Char}
    (h : ∀ c, l.head? = some c → p c = false) : l.dropWhile p = l := by
  cases l with
  | nil => rfl
  | cons c t =>
    rw [List.dropWhile_cons, if_neg (by rw [h c rfl]; simp)]

theorem collapseWs_eq_self : ∀ (cs : List Char), wsSingle cs = true → noAdjWs cs = true →
    collapseWs cs = cs := by
  intro cs
  induction cs with
  | nil => intro _ _; rfl
  | cons c cs ih =>
    intro hws hna
    rw [collapseWs_cons]
    rw [wsSingle, List.all_cons, Bool.and_eq_true] at hws
    by_cases hc : isPySpace c
    · rw [if_pos hc]
      have hcsp : c = ' ' := by
        rcases Bool.or_eq_true_iff.mp hws.1 with h1 | h2
        · rw [hc] at h1; cases h1
        · simpa using h2
      have hdrop : cs.dropWhile isPySpace = cs := by
        apply dropWhile_eq_self_of_head
        intro d hd
        cases cs with
        | nil => cases hd
        | cons b t =>
          cases hd
          have : noAdjWs (c :: d :: t) = ((!(isPySpace c && isPySpace d)) && noAdjWs (d :: t)) :=
            rfl
          rw [this, Bool.and_eq_true] at hna
          have h1 := hna.1
          rw [hc] at h1
          simpa using h1
      rw [hdrop, ih hws.2 (noAdjWs_tail hna), hcsp]
    · rw [if_neg hc, ih hws.2 (noAdjWs_tail hna)]

theorem wsSingle_sublist {l1 l2 : List Char} (hsub : l1.Sublist l2)
    (h : wsSingle l2 = true) : wsSingle l1 = true := by
  rw [wsSingle, List.all_eq_true] at h ⊢
  exact fun x hx => h x (List.Sublist.mem hx hsub)

theorem noAdjWs_take : ∀ (l : List Char) (n : Nat), noAdjWs l = true →
    noAdjWs (l.take n) = true := by
  intro l
  induction l with
  | nil =>
    intro n _
    rw [List.take_nil]
    rfl
  | cons a l ih =>
    intro n h
    cases n with
    | zero => rfl
    | succ n =>
      rw [List.take_succ_cons]
      cases l with
      | nil =>
        rw [List.take_nil]
        rfl
      | cons b t =>
        cases n with
        | zero => rfl
        | succ n =>
          rw [List.take_succ_cons]
          have hpair : noAdjWs (a :: b :: t) =
              ((!(isPySpace a && isPySpace b)) && noAdjWs (b :: t)) := rfl
          rw [hpair, Bool.and_eq_true] at h
          have hrec := ih (n + 1) h.2
          rw [List.take_succ_cons] at hrec
          show ((!(isPySpace a && isPySpace b)) && noAdjWs (b :: t.take n)) = true
          rw [h.1, hrec]
          rfl

theorem noAdjWs_append_left {a t : List Char} (h : noAdjWs (a ++ t) = true) :
    noAdjWs a = true := by
  have ha : a = (a ++ t).take a.length := (List.take_left a t).symm
  rw [ha]
  exact noAdjWs_take _ _ h

theorem noAdjWs_suffix_of : ∀ (t l : List Char), noAdjWs (t ++ l) = true →
    noAdjWs l = true := by
  intro t
  induction t with
  | nil => exact fun l h => h
  | cons a t ih =>
    intro l h
    exact ih l (noAdjWs_tail h)

theorem dropWhile_idem (p : Char → Bool) (l : List Char) :
    (l.dropWhile p).dropWhile p = l.dropWhile p := by
  apply dropWhile_eq_self_of_head
  intro c hc
  cases hd : l.dropWhile p with
  | nil => rw [hd] at hc; cases hc
  | cons d t =>
    rw [hd] at hc
    cases hc
    exact dropWhile_head_false hd

theorem rdropWhile_idem (p : Char → Bool) (l : List Char) :
    (l.rdropWhile p).rdropWhile p = l.rdropWhile p := by
  unfold List.rdropWhile
  rw [List.reverse_reverse, dropWhile_idem]

theorem pyStrip_head_not_ws (cs : List Char) :
    ∀ c, (pyStrip cs).head? = some c → isPySpace c = false := by
  intro c hc
  unfold pyStrip at hc
  obtain ⟨t, ht⟩ := List.rdropWhile_prefix isPySpace (cs.dropWhile isPySpace)
  cases hr : (cs.dropWhile isPySpace).rdropWhile isPySpace with
  | nil => rw [hr] at hc; cases hc
  | cons d s =>
    rw [hr] at hc
    cases hc
    rw [hr] at ht
    rw [List.cons_append] at ht
    exact dropWhile_head_false ht.symm

theorem pyStrip_idem (cs : List Char) : pyStrip (pyStrip cs) = pyStrip cs := by
  conv_lhs => rw [pyStrip]
  rw [dropWhile_eq_self_of_head (pyStrip_head_not_ws cs)]
  unfold pyStrip
  exact rdropWhile_idem isPySpace _

/-- C8.  The TextNormalizer is idempotent: `clean_text` removes every
URL match, collapses whitespace runs to single spaces, and strips; its
output contains no URL match, all its whitespace is single interior
spaces, and it is already stripped, so a second application returns it
unchanged. -/
theorem C8_normalize_idempotent (x : List Char) :
    clean_text (clean_text x) = clean_text x := by
  have hu : hasUrl (removeUrls x) = false := hasUrl_removeUrls x.length x (le_refl _)
  have hv : hasUrl (collapseWs (removeUrls x)) = false :=
    hasUrl_collapseWs (removeUrls x).length (removeUrls x) (le_refl _) hu
  have hy : hasUrl (clean_text x) = false := hasUrl_pyStrip_false _ hv
  show pyStrip (collapseWs (removeUrls (clean_text x))) = clean_text x
  rw [removeUrls_of_urlFree _ hy]
  have hws : wsSingle (collapseWs (removeUrls x)) = true := wsSingle_collapseAux _ false
  have hna : noAdjWs (collapseWs (removeUrls x)) = true := noAdjWs_collapseAux _ false
  have hws2 : wsSingle (clean_text x) = true := by
    apply wsSingle_sublist ?_ hws
    show (pyStrip (collapseWs (removeUrls x))).Sublist _
    unfold pyStrip
    exact (List.rdropWhile_prefix _ _).sublist.trans (List.dropWhile_suffix _).sublist
  have hna2 : noAdjWs (clean_text x) = true := by
    show noAdjWs (pyStrip (collapseWs (removeUrls x))) = true
    unfold pyStrip
    obtain ⟨t1, ht1⟩ := List.dropWhile_suffix
      (l := collapseWs (removeUrls x)) isPySpace
    obtain ⟨t2, ht2⟩ := List.rdropWhile_prefix isPySpace
      ((collapseWs (removeUrls x)).dropWhile isPySpace)
    have hs1 : noAdjWs ((collapseWs (removeUrls x)).dropWhile isPySpace) = true := by
      apply noAdjWs_suffix_of t1
      rw [ht1]
      exact hna
    apply noAdjWs_append_left (t := t2)
    rw [ht2]
    exact hs1
  rw [collapseWs_eq_self _ hws2 hna2]
  exact pyStrip_idem _
